import Mathlib

/-!
Shallow embedding of the Solvned ODE-solving library (Go) and verification of
its specification.

Modelling conventions:
* `float64` is modelled exactly: by `ℚ` wherever the code only uses field
  operations and comparisons, and by `ℝ` where it calls `math.Sqrt`/`math.Pow`
  (`AdaptiveUpdateStep`, the Richardson-adaptive stepper, Runge-Kutta-Fehlberg).
  Note Lean's convention `x / 0 = 0`; no theorem below depends on the value of
  an expression whose Go counterpart divides by zero.
* Go's `(value, ok)` pairs are kept as pairs `List ℚ × Bool` when the code can
  read the value even when `ok` is false, and as `Option` otherwise.
* A Go runtime panic (slice index out of range) and non-termination are both
  modelled as `none` of an outer `Option`; loops without a structural measure
  take a fuel parameter, and theorems about such loops quantify over the fuel.
* Steppers are consumed through their `Next` method only, so a stepper is
  modelled by the list of points it will emit; `Next` pops the head and
  exhaustion is the empty list.
* Value vectors are `List ℚ`; the componentwise Go loops `for i := range v`
  become `List.zipWith`/`List.map` (all callers keep the dimension fixed, as
  the `Point` contract requires).
-/

/-- `Point` from `common.go`: one solution point `(time, value)`.
`Clone` deep-copies; values here are immutable so cloning is the identity
and is omitted. -/
structure PointQ where
  time : ℚ
  value : List ℚ
deriving DecidableEq

/-- `eulerStep` from the Euler method source file: `x += h·f(t,x)`;
`none` models a `false` (domain failure) return. -/
def eulerStep (f : PointQ → List ℚ × Bool) (p : PointQ) (h : ℚ) :
    Option (List ℚ) :=
  let (deriv, ok) := f p
  if !ok then none
  else some (List.zipWith (fun x d => x + h * d) p.value deriv)

/-- `modEulerStep` from the Euler method source file. The Go code binds the
`ok` flag of the second derivative evaluation but never tests it, so the
returned value uses `deriv2` even on domain failure; the model mirrors this
by discarding `_ok2`. -/
def modEulerStep (f : PointQ → List ℚ × Bool) (p : PointQ) (h : ℚ) :
    Option (List ℚ) :=
  let (deriv, ok) := f p
  if !ok then none
  else
    let point : PointQ :=
      ⟨p.time + h, List.zipWith (fun x d => x + h * d) p.value deriv⟩
    let (deriv2, _ok2) := f point
    some (List.zipWith (fun x dd => x + h * (dd.1 + dd.2) / 2)
      p.value (deriv.zip deriv2))

/-- `RK4Step` from the Runge-Kutta source file. Returns the first stage
derivative **already scaled by `h`** (the Go function scales `k1` in place
before returning it) together with the updated value. -/
def RK4Step (f : PointQ → List ℚ × Bool) (p : PointQ) (h : ℚ) :
    Option (List ℚ × List ℚ) :=
  let (k1, ok) := f p
  if !ok then none else
  let k1 := k1.map (· * h)
  let p1 : PointQ :=
    ⟨p.time + h / 2, List.zipWith (fun x v => x + v / 2) p.value k1⟩
  let (k2, ok) := f p1
  if !ok then none else
  let k2 := k2.map (· * h)
  let p2 : PointQ :=
    ⟨p.time + h / 2, List.zipWith (fun x v => x + v / 2) p.value k2⟩
  let (k3, ok) := f p2
  if !ok then none else
  let k3 := k3.map (· * h)
  let p3 : PointQ :=
    ⟨p.time + h, List.zipWith (fun x v => x + v) p.value k3⟩
  let (k4, ok) := f p3
  if !ok then none else
  let k4 := k4.map (· * h)
  some (k1, List.zipWith
    (fun x kk => x + (kk.1 + 2 * kk.2.1 + 2 * kk.2.2.1 + kk.2.2.2) / 6)
    p.value (k1.zip (k2.zip (k3.zip k4))))

/-- `rk4Step`, the `FixedStepMethod`-shaped wrapper that discards `k1`. -/
def rk4Step (f : PointQ → List ℚ × Bool) (p : PointQ) (h : ℚ) :
    Option (List ℚ) :=
  (RK4Step f p h).map (·.2)

/-- `AdaptiveUpdateStep` from the stepping source file, over `ℝ`
(`math.Pow` is `Real.rpow`). `order` is the `uint8` order, positive in all
uses per the `AdaptiveStepMethod` contract. -/
noncomputable def AdaptiveUpdateStep
    (step tol err max : ℝ) (order : ℕ) : ℝ :=
  let adjust := tol * |step| / (2 * err)
  let q := if order = 1 then adjust else adjust ^ ((1 : ℝ) / (order : ℝ))
  let q := if q < 0.1 then 0.1 else if q > 4 then 4 else q
  let newStep := q * step
  if |newStep| > max then (if newStep > 0 then max else -max) else newStep

/-- `LinearInterpolator.FindValue` from the interpolation source file:
`x1·(1-ratio) + x2·ratio` with `ratio = (t - t1)/(t2 - t1)`. -/
def linearFindValue (p1 p2 : PointQ) (t : ℚ) : List ℚ :=
  let ratio := (t - p1.time) / (p2.time - p1.time)
  List.zipWith (fun x1 x2 => x1 * (1 - ratio) + x2 * ratio) p1.value p2.value

/-- `Step` from `mstep/common.go`: one entry of the multistep history window. -/
structure StepEntry where
  value : List ℚ
  deriv : List ℚ
deriving DecidableEq

/-- `Implicit` from `mstep/common.go`: `Σ aᵢ·steps[i].value` plus
`Σ step·bᵢ·steps[i].deriv`. The Go loops run the coefficient lists over the
leading entries of `steps` (panicking when `steps` is shorter than a
coefficient list; every caller passes exactly four entries), which the `zip`s
mirror. -/
def Implicit (steps : List StepEntry) (a b : List ℚ) (step : ℚ) : List ℚ :=
  let base := List.replicate ((steps.headD ⟨[], []⟩).value.length) (0 : ℚ)
  let withA := (a.zip steps).foldl
    (fun r vs => List.zipWith (· + ·) r (vs.2.value.map (vs.1 * ·))) base
  (b.zip steps).foldl
    (fun r vs => List.zipWith (· + ·) r (vs.2.deriv.map (step * vs.1 * ·))) withA

/-- `Shift` from `mstep/common.go`: `steps[i] = steps[i-1]` for `i` from the
top down to `1`, leaving `steps[0]` in place. -/
def Shift (steps : List StepEntry) : List StepEntry :=
  match steps with
  | [] => []
  | s :: _ => s :: steps.dropLast

/-- `adamsBashfordStep` from `mstep/adams.go`. -/
def adamsBashfordStep (steps : List StepEntry) (h : ℚ) : List ℚ :=
  Implicit steps [1] [55 / 24, -59 / 24, 37 / 24, -9 / 24] h

/-- The mutable state of `adamsBashfordStepper` (`mstep/adams.go`); the
derivative function of the cloned IVP is passed separately since it is
immutable. -/
structure AdamsBashfordState where
  steps : List StepEntry
  h : ℚ
  problem : PointQ
  init : ℕ
deriving DecidableEq

/-- `adamsBashfordStepper.NextStep` from `mstep/adams.go`. In the bootstrap
branch `RK4Step` returns its first stage derivative already multiplied by `h`,
and that scaled vector is what gets stored in the `deriv` slot of the history
entry. Failure of the multistep derivative evaluation sets `h = 0` (the error
indicator) exactly as the Go code does. -/
def adamsBashfordNextStep (f : PointQ → List ℚ × Bool)
    (s : AdamsBashfordState) (h : ℚ) : Option PointQ × AdamsBashfordState :=
  if s.h = 0 then (none, s)
  else if s.init ≠ 0 then
    match RK4Step f s.problem h with
    | none => (none, s)
    | some (deriv, newValue) =>
      let time := s.problem.time + h
      let steps := s.steps.set s.init
        { (s.steps.getD s.init ⟨[], []⟩) with deriv := deriv }
      let init := s.init - 1
      let steps := steps.set init
        { (steps.getD init ⟨[], []⟩) with value := newValue }
      (some ⟨time, newValue⟩,
        { steps := steps, h := s.h, problem := ⟨time, newValue⟩, init := init })
  else
    let (d, ok) := f s.problem
    if !ok then (none, { s with h := 0 })
    else
      let steps := s.steps.set 0 { (s.steps.getD 0 ⟨[], []⟩) with deriv := d }
      let newValue := adamsBashfordStep steps h
      let time := s.problem.time + h
      let steps := Shift steps
      let steps := steps.set 0 { (steps.getD 0 ⟨[], []⟩) with value := newValue }
      (some ⟨time, newValue⟩,
        { steps := steps, h := s.h, problem := ⟨time, newValue⟩, init := 0 })

/-- `adamsBashfordStepper.Next`: `NextStep` with the stored step. -/
def adamsBashfordNext (f : PointQ → List ℚ × Bool) (s : AdamsBashfordState) :
    Option PointQ × AdamsBashfordState :=
  adamsBashfordNextStep f s s.h

/-- `adamsBashfordMethod.withStep`: four zero history entries except that
`steps[3].Value` is a copy of the initial value, `init = 3`. -/
def adamsBashfordInit (h : ℚ) (start : PointQ) : AdamsBashfordState :=
  { steps := [⟨[], []⟩, ⟨[], []⟩, ⟨[], []⟩, ⟨start.value, []⟩],
    h := h, problem := start, init := 3 }

/-- The list of results of `n` successive `Next` calls on an
Adams-Bashford stepper. -/
def adamsBashfordPoints (f : PointQ → List ℚ × Bool) :
    AdamsBashfordState → ℕ → List (Option PointQ)
  | _, 0 => []
  | s, n + 1 =>
    let r := adamsBashfordNext f s
    r.1 :: adamsBashfordPoints f r.2 n

/-- List access with a Go `int` index: negative or too-large indices are a
runtime panic, modelled as `none`. -/
def elemAt (l : List PointQ) (i : ℤ) : Option PointQ :=
  if i < 0 then none else l.get? i.toNat

/-- `DenseSolution.search` from `dense.go` with a fuel parameter for its
unbounded recursion; the interpolator field is passed as a function. Go `int`
division truncates toward zero, which is `Int.div`. -/
def searchDense (interp : PointQ → PointQ → ℚ → List ℚ) (points : List PointQ) :
    ℕ → ℚ → ℤ → ℤ → Option (List ℚ)
  | 0, _, _, _ => none
  | fuel + 1, time, min, max =>
    if min = max then (elemAt points min).map (·.value)
    else if max - min = 1 then
      (elemAt points min).bind fun pmin =>
      (elemAt points max).bind fun pmax =>
      if time = pmin.time then some pmin.value
      else if time = pmax.time then some pmax.value
      else some (interp pmin pmax time)
    else
      let mid := Int.tdiv (max - min) 2
      (elemAt points mid).bind fun pmid =>
      if time = pmid.time then some pmid.value
      else if time > pmid.time then searchDense interp points fuel time mid max
      else searchDense interp points fuel time min mid

/-- `DenseSolution.Start`: the time of the first stored point (the Go code
indexes an invariant-nonempty slice; the default is never used below). -/
def denseStart (points : List PointQ) : ℚ := (points.headD ⟨0, []⟩).time

/-- `DenseSolution.End`: the time of the last stored point. -/
def denseEnd (points : List PointQ) : ℚ := (points.getLastD ⟨0, []⟩).time

/-- `DenseSolution.Get` from `dense.go`: out-of-range times return the
boundary value with `false`; otherwise the result of the binary search with
`true`. `none` models non-termination of `search` (fuel exhaustion at every
fuel). -/
def denseGet (interp : PointQ → PointQ → ℚ → List ℚ) (points : List PointQ)
    (fuel : ℕ) (time : ℚ) : Option (List ℚ × Bool) :=
  if time < denseStart points then some ((points.headD ⟨0, []⟩).value, false)
  else if time > denseEnd points then
    some ((points.getLastD ⟨0, []⟩).value, false)
  else (searchDense interp points fuel time 0 ((points.length : ℤ) - 1)).map
    (·, true)

/-- A derivative function that is only defined for `time ≤ 0`: outside the
domain it reports failure, and (as the `IVP` contract allows) still returns
a meaningless vector. -/
def derivHalfline : PointQ → List ℚ × Bool :=
  fun p => if p.time ≤ 0 then ([1], true) else ([1000], false)

/-- C6: the claim states that Euler, modified Euler and RK4 all return failure
whenever a stage derivative evaluation reports domain failure. Euler and RK4 do
(first and fourth conjuncts), but `modEulerStep` ignores the `ok` flag of its
second (endpoint) derivative evaluation: with a derivative that leaves its
domain at time `h = 1` (third conjunct), the step from `(0, [0])` still
returns success, and its value `1001/2` even uses the meaningless vector
`[1000]` returned alongside the failure. -/
theorem modEulerStep_ignores_second_failure :
    eulerStep (fun _ => ([7], false)) ⟨0, [0]⟩ 1 = none ∧
    RK4Step derivHalfline ⟨0, [0]⟩ 1 = none ∧
    (derivHalfline ⟨1, [1]⟩).2 = false ∧
    modEulerStep derivHalfline ⟨0, [0]⟩ 1 = some [1001 / 2] := by
  refine ⟨by norm_num [eulerStep], by norm_num [RK4Step, derivHalfline],
    by norm_num [derivHalfline], by norm_num [modEulerStep, derivHalfline]⟩

/-- C8: the step-update formula. With `step=1, tol=0.01, err=0.02, max=10`:
for `order=4` the result is `q·1` with `q = (tol·|step|/(2·err))^(1/4)
= 0.25^(1/4) ≈ 0.707` (inside the clamp `[0.1,4]` and below `max`); for
`order=1` the fast path gives the ratio `0.25` directly; and saturation to
`max` preserves the sign of the step (`step=-8, order=1` gives `q=2`,
`q·step=-16`, saturated to `-10`). -/
theorem AdaptiveUpdateStep_values :
    AdaptiveUpdateStep 1 (1 / 100) (1 / 50) 10 4 = (1 / 4 : ℝ) ^ ((1 : ℝ) / 4)
    ∧ AdaptiveUpdateStep 1 (1 / 100) (1 / 50) 10 1 = 1 / 4
    ∧ AdaptiveUpdateStep (-8) (1 / 100) (1 / 50) 10 1 = -10 := by
  have hadj : (1 / 100 : ℝ) * |(1 : ℝ)| / (2 * (1 / 50)) = 1 / 4 := by
    rw [abs_one]; norm_num
  have hq : (1 / 4 : ℝ) ≤ (1 / 4 : ℝ) ^ ((1 : ℝ) / 4) := by
    have h : (1 / 4 : ℝ) ^ (1 : ℝ) ≤ (1 / 4 : ℝ) ^ ((1 : ℝ) / 4) :=
      Real.rpow_le_rpow_of_exponent_ge (by norm_num) (by norm_num) (by norm_num)
    rwa [Real.rpow_one] at h
  have hq1 : (1 / 4 : ℝ) ^ ((1 : ℝ) / 4) ≤ 1 :=
    Real.rpow_le_one (by norm_num) (by norm_num) (by norm_num)
  have h4c : (1 : ℝ) / ((4 : ℕ) : ℝ) = (1 : ℝ) / 4 := by norm_num
  have habs : |(1 / 4 : ℝ) ^ ((1 : ℝ) / 4)| = (1 / 4 : ℝ) ^ ((1 : ℝ) / 4) :=
    abs_of_nonneg (le_trans (by norm_num) hq)
  refine ⟨?_, ?_, ?_⟩
  · simp only [AdaptiveUpdateStep, hadj, h4c]
    have h0 : ¬((4 : ℕ) = 1) := by norm_num
    have hA : ¬((1 / 4 : ℝ) ^ ((1 : ℝ) / 4) < 0.1) :=
      not_lt.mpr (le_trans (by norm_num) hq)
    have hB : ¬((1 / 4 : ℝ) ^ ((1 : ℝ) / 4) > 4) :=
      not_lt.mpr (le_trans hq1 (by norm_num))
    have hC : ¬(|(1 / 4 : ℝ) ^ ((1 : ℝ) / 4) * 1| > 10) := by
      push_neg
      rw [mul_one, habs]
      exact le_trans hq1 (by norm_num)
    rw [if_neg h0, if_neg hA, if_neg hB, if_neg hC, mul_one]
  · simp only [AdaptiveUpdateStep, hadj]
    norm_num [abs_le]
  · simp only [AdaptiveUpdateStep]
    have hadj8 : (1 / 100 : ℝ) * |(-8 : ℝ)| / (2 * (1 / 50)) = 2 := by
      rw [abs_of_nonpos (by norm_num : (-8 : ℝ) ≤ 0)]; norm_num
    simp only [hadj8]
    norm_num

/-- The constant derivative function `f(t,x) = 1`, i.e. the IVP `x' = 1`. -/
def derivOne : PointQ → List ℚ × Bool := fun _ => ([1], true)

/-- C5: on `x' = 1, x(0) = 0` with step `h = 2`, the first three `Next` calls
of the Adams-Bashford forward stepper are exactly the RK4 bootstrap steps
(second to fourth conjuncts), but the fourth `Next` returns `65/12`, not the
value `x3 + h·(55·f3 − 59·f2 + 37·f1 − 9·f0)/24 = 6 + 2·(55−59+37−9)/24 = 8`
the claim specifies: the bootstrap stores `h·f` (the scaled `k1` returned by
`RK4Step`) in the history `deriv` slots, and `Implicit` multiplies those slots
by `h` again, so the three oldest contributions enter the formula as `h²·f`. -/
theorem adamsBashford_fourth_step_wrong_scaling :
    adamsBashfordPoints derivOne (adamsBashfordInit 2 ⟨0, [0]⟩) 4 =
      [some ⟨2, [2]⟩, some ⟨4, [4]⟩, some ⟨6, [6]⟩, some ⟨8, [65 / 12]⟩] ∧
    rk4Step derivOne ⟨0, [0]⟩ 2 = some [2] ∧
    rk4Step derivOne ⟨2, [2]⟩ 2 = some [4] ∧
    rk4Step derivOne ⟨4, [4]⟩ 2 = some [6] ∧
    (6 : ℚ) + 2 * (55 * 1 - 59 * 1 + 37 * 1 - 9 * 1) / 24 = 8 ∧
    (65 / 12 : ℚ) ≠ 8 := by
  refine ⟨?_, ?_, ?_, ?_, by norm_num, by norm_num⟩ <;>
    norm_num [adamsBashfordPoints, adamsBashfordNext, adamsBashfordNextStep,
      adamsBashfordInit, adamsBashfordStep, Implicit, Shift, RK4Step, rk4Step,
      derivOne]

/-- The four-point dense solution `(0,[0]), (1,[10]), (2,[20]), (3,[30])`. -/
def densePts4 : List PointQ := [⟨0, [0]⟩, ⟨1, [10]⟩, ⟨2, [20]⟩, ⟨3, [30]⟩]

theorem searchDense_pts4_aux (interp : PointQ → PointQ → ℚ → List ℚ) :
    ∀ fuel, searchDense interp densePts4 fuel 2 1 3 = none := by
  intro fuel
  induction fuel with
  | zero => rfl
  | succ n ih =>
    have h1 : elemAt densePts4 1 = some ⟨1, [10]⟩ := rfl
    have hmid : Int.tdiv ((3 : ℤ) - 1) 2 = 1 := by decide
    rw [searchDense]
    rw [if_neg (by decide : ¬((1 : ℤ) = 3)),
      if_neg (by decide : ¬((3 : ℤ) - 1 = 1))]
    simp only [hmid, h1, Option.bind_some]
    norm_num
    exact ih

/-- C3: the claim states that `Get(p.Time)` terminates with `p.Value` for
every stored point `p`. With four stored points at times `0,1,2,3`, the point
`(2,[20])` is stored (third conjunct) but `Get(2)` never returns, for any
interpolator and any recursion depth (first conjunct): `search` computes its
midpoint as `(max−min)/2` instead of `(max+min)/2`, so `search(2,1,3)` calls
`search(2,1,3)` forever. Other stored times (e.g. `t = 1`, hit exactly by the
miscomputed midpoint) do return their stored value (second conjunct). -/
theorem denseGet_stored_point_diverges :
    (∀ interp fuel, denseGet interp densePts4 fuel 2 = none) ∧
    denseGet linearFindValue densePts4 9 1 = some ([10], true) ∧
    densePts4.get? 2 = some ⟨2, [20]⟩ := by
  refine ⟨?_, ?_, by rfl⟩
  · intro interp fuel
    have hrange : ¬((2 : ℚ) < denseStart densePts4) ∧
        ¬((2 : ℚ) > denseEnd densePts4) := by
      constructor <;> norm_num [denseStart, denseEnd, densePts4]
    rw [denseGet, if_neg hrange.1, if_neg hrange.2]
    cases fuel with
    | zero => rfl
    | succ n =>
      have h1 : elemAt densePts4 1 = some ⟨1, [10]⟩ := rfl
      have hlen : ((densePts4.length : ℤ) - 1) = 3 := by rfl
      have hmid : Int.tdiv ((3 : ℤ) - 0) 2 = 1 := by decide
      rw [hlen, searchDense]
      rw [if_neg (by decide : ¬((0 : ℤ) = 3)),
        if_neg (by decide : ¬((3 : ℤ) - 0 = 1))]
      simp only [hmid, h1, Option.bind_some]
      norm_num
      rw [searchDense_pts4_aux]
  · have h0 : elemAt densePts4 1 = some ⟨1, [10]⟩ := rfl
    have hrange : ¬((1 : ℚ) < denseStart densePts4) ∧
        ¬((1 : ℚ) > denseEnd densePts4) := by
      constructor <;> norm_num [denseStart, denseEnd, densePts4]
    rw [denseGet, if_neg hrange.1, if_neg hrange.2]
    have hlen : ((densePts4.length : ℤ) - 1) = 3 := by rfl
    have hmid : Int.tdiv ((3 : ℤ) - 0) 2 = 1 := by decide
    rw [hlen, searchDense]
    rw [if_neg (by decide : ¬((0 : ℤ) = 3)),
      if_neg (by decide : ¬((3 : ℤ) - 0 = 1))]
    simp only [hmid, h0, Option.bind_some]
    norm_num

/-- The simultaneous Go assignment `l[i], l[j] = l[j], l[i]`: both reads come
from the original slice and an out-of-range index is a panic (`none`). -/
def swapGo {α : Type} (l : List α) (i j : ℕ) : Option (List α) :=
  (l.get? j).bind fun xj =>
  (l.get? i).bind fun xi =>
  some ((l.set i xj).set j xi)

/-- The reversal loop `for i := 0; i < size/2; i++ { l[i], l[size-i] =
l[size-i], l[i] }` shared by `StepUntil` and `DenseSolve`, unrolled into its
`size/2` iterations (`k` counts the remaining ones). -/
def reverseSwapsAux {α : Type} (size : ℕ) : ℕ → ℕ → List α → Option (List α)
  | 0, _, l => some l
  | k + 1, i, l => (swapGo l i (size - i)).bind (reverseSwapsAux size k (i + 1))

/-- The whole reversal loop on a slice, with `size` its length on entry. -/
def reverseLoop {α : Type} (l : List α) : Option (List α) :=
  reverseSwapsAux l.length (l.length / 2) 0 l

/-- The loop `for end < current.Time { prev = current.Clone(); current, ok =
stepper.Next(); if !ok { return failure } }` opening the `end < t0` special
case of `DenseSolve` (and, mirrored, the `start > t0` one). Returns
`(prev, current, remaining stepper)`. -/
def denseSeekBack (bound : ℚ) :
    List PointQ → PointQ → PointQ → Option (PointQ × PointQ × List PointQ)
  | [], current, prev =>
    if bound < current.time then none else some (prev, current, [])
  | p :: rest, current, prev =>
    if bound < current.time then denseSeekBack bound rest p current
    else some (prev, current, p :: rest)

/-- The forward twin of `denseSeekBack`: loop condition `bound > current.Time`. -/
def denseSeekFwd (bound : ℚ) :
    List PointQ → PointQ → PointQ → Option (PointQ × PointQ × List PointQ)
  | [], current, prev =>
    if bound > current.time then none else some (prev, current, [])
  | p :: rest, current, prev =>
    if bound > current.time then denseSeekFwd bound rest p current
    else some (prev, current, p :: rest)

/-- The collection loop `for start < current.Time { current, ok = Next(); if
!ok break; points = append(points, current.Clone()) }` of `DenseSolve`. -/
def denseCollectBack (bound : ℚ) :
    List PointQ → PointQ → List PointQ → List PointQ × PointQ × List PointQ
  | [], current, points => (points, current, [])
  | p :: rest, current, points =>
    if bound < current.time then denseCollectBack bound rest p (points ++ [p])
    else (points, current, p :: rest)

/-- The forward twin of `denseCollectBack`: loop condition `end > current.Time`. -/
def denseCollectFwd (bound : ℚ) :
    List PointQ → PointQ → List PointQ → List PointQ × PointQ × List PointQ
  | [], current, points => (points, current, [])
  | p :: rest, current, points =>
    if bound > current.time then denseCollectFwd bound rest p (points ++ [p])
    else (points, current, p :: rest)

/-- Outcome of `DenseSolve`: a Go panic, the `(DenseSolution{}, false)`
failure return, or success with the stored point list. -/
inductive DenseResult : Type
  | panic : DenseResult
  | failure : DenseResult
  | ok : List PointQ → DenseResult
deriving DecidableEq

/-- `DenseSolve` from `dense.go`. The `Method`'s two steppers are passed as
the lists of points they emit; the interpolator only gets stored, so it is
omitted here. `ivp.Start` is `startPt`, the requested interval is
`[start, endQ]`. -/
def DenseSolve (backward forward : List PointQ) (startPt : PointQ)
    (start endQ : ℚ) : DenseResult :=
  let backPhase : Option (List PointQ × Bool × PointQ × List PointQ) :=
    if endQ < startPt.time then
      match denseSeekBack endQ backward startPt ⟨0, []⟩ with
      | none => none
      | some (prev, current, rest) =>
        some ((if current.time < endQ then [prev] else []) ++ [current],
          false, current, rest)
    else some ([], true, startPt, backward)
  match backPhase with
  | none => .failure
  | some (points0, pending, current, backRest) =>
    let cb := denseCollectBack start backRest current points0
    match reverseLoop cb.1 with
    | none => .panic
    | some points1 =>
      if start > startPt.time then
        match denseSeekFwd start forward startPt ⟨0, []⟩ with
        | none => .failure
        | some (prev, current2, fwdRest) =>
          let points2 := points1 ++
            (if current2.time > start then [prev] else []) ++ [current2]
          .ok (denseCollectFwd endQ fwdRest current2 points2).1
      else
        let points2 := if pending then points1 ++ [startPt] else points1
        .ok (denseCollectFwd endQ forward startPt points2).1

/-- C9: the claim states the stored list of a successful `DenseSolve` is a
single increasing-time sequence, in particular when two or more backward
points were collected. With exactly one backward point the reversal loop body
never runs and the result is indeed increasing (second conjunct), but as soon
as two backward points are collected the reversal loop's first iteration
executes `points[0], points[size] = points[size], points[0]` with
`size = len(points)`, an index out of range: `DenseSolve` panics instead of
returning any solution (first conjunct). -/
theorem denseSolve_two_backward_points_panics :
    DenseSolve [⟨-1, [1]⟩, ⟨-2, [2]⟩] [] ⟨0, [0]⟩ (-2) 0 = .panic ∧
    DenseSolve [⟨-1, [1]⟩] [⟨1, [3]⟩] ⟨0, [0]⟩ (-1) 1 =
      .ok [⟨-1, [1]⟩, ⟨0, [0]⟩, ⟨1, [3]⟩] := by
  constructor <;>
    norm_num [DenseSolve, denseSeekBack, denseSeekFwd, denseCollectBack,
      denseCollectFwd, reverseLoop, reverseSwapsAux, swapGo]

/-- `Event` from `event.go`. -/
structure EventQ where
  Cross : PointQ → ℚ
  Tolerance : ℚ
  Action : PointQ → Bool

/-- `differentSign` from `event.go`:
`(f1 <= 0 && f2 >= 0) || (f1 >= 0 && f2 <= 0)`. -/
def differentSign (f1 f2 : ℚ) : Prop :=
  (f1 ≤ 0 ∧ 0 ≤ f2) ∨ (0 ≤ f1 ∧ f2 ≤ 0)

instance (f1 f2 : ℚ) : Decidable (differentSign f1 f2) := by
  unfold differentSign; infer_instance

/-- The bisection loop of `Event.FindPoint` (`event.go`), with fuel: the Go
loop has no iteration cap and can diverge (`none` at every fuel). Go hoists
`downwards := e.Cross(p1) > 0` before the loop; `Cross` is pure and `p1`
fixed, so re-testing it each iteration is equivalent. -/
def findPointLoop (interp : PointQ → PointQ → ℚ → List ℚ) (e : EventQ)
    (p1 p2 : PointQ) : ℕ → PointQ → PointQ → Option PointQ
  | 0, _, _ => none
  | fuel + 1, min, max =>
    let midTime := (min.time + max.time) / 2
    let mid : PointQ := ⟨midTime, interp p1 p2 midTime⟩
    let value := e.Cross mid
    if |value| < e.Tolerance then some mid
    else if e.Cross p1 > 0 then
      if value > 0 then findPointLoop interp e p1 p2 fuel mid max
      else findPointLoop interp e p1 p2 fuel min mid
    else
      if value > 0 then findPointLoop interp e p1 p2 fuel min mid
      else findPointLoop interp e p1 p2 fuel mid max

/-- `Event.FindPoint`: order the endpoints by time, then bisect. -/
def FindPoint (interp : PointQ → PointQ → ℚ → List ℚ) (e : EventQ)
    (p1 p2 : PointQ) (fuel : ℕ) : Option PointQ :=
  if p1.time < p2.time then findPointLoop interp e p1 p2 fuel p1 p2
  else findPointLoop interp e p1 p2 fuel p2 p1

/-- `requiredAction` from `event.go`. -/
structure RequiredAction where
  index : ℕ
  point : PointQ

/-- Ordered insertion with the `requiredActions.Less` comparator
(`r[i].point.Time < r[j].point.Time`). -/
def insertAction (a : RequiredAction) :
    List RequiredAction → List RequiredAction
  | [] => [a]
  | b :: rest =>
    if a.point.time < b.point.time then a :: b :: rest
    else b :: insertAction a rest

/-- `sort.Sort(actions)`: modelled as insertion sort with the `Less`
comparator. Go's sort is unstable, but on lists with pairwise-distinct keys
(as in every input below) any comparison sort produces this same result. -/
def sortActions (l : List RequiredAction) : List RequiredAction :=
  l.foldr insertAction []

/-- The per-event detection loop inside `StepUntil`: walks the events paired
with their previous crossing values `vs`, localizing each sign change with
`FindPoint` and returning the collected `requiredActions` together with the
updated `vs`. `none` propagates a diverging localization. -/
def collectActions (interp : PointQ → PointQ → ℚ → List ℚ) (fuel : ℕ)
    (prev point : PointQ) :
    List (EventQ × ℚ) → ℕ → Option (List RequiredAction × List ℚ)
  | [], _ => some ([], [])
  | (e, v) :: rest, i =>
    let newVal := e.Cross point
    let hd : Option (List RequiredAction) :=
      if differentSign v newVal then
        (FindPoint interp e prev point fuel).map (fun p => [⟨i, p⟩])
      else some []
    hd.bind fun hd =>
      (collectActions interp fuel prev point rest (i + 1)).map
        (fun ar => (hd ++ ar.1, newVal :: ar.2))

/-- The dispatch loop of `StepUntil`: run each action in order, logging the
invocations `(event index, localized point)`; the first action returning
`false` stops with its index. The indices always address `evs` in range (they
were produced from it), so the `getD` default is never used. -/
def runActions (evs : List EventQ) :
    List RequiredAction → List (ℕ × PointQ) → Option ℕ × List (ℕ × PointQ)
  | [], log => (none, log)
  | a :: rest, log =>
    let log := log ++ [(a.index, a.point)]
    if (evs.getD a.index ⟨fun _ => 0, 0, fun _ => true⟩).Action a.point then
      runActions evs rest log
    else (some a.index, log)

/-- The main loop of `StepUntil` (stepping source file). Returns the action
log together with Go's `(index, ok)` result; `none` models a panic in the
backward reversal loop or a diverging localization. The `callback` only
copies accepted points out and is not modelled. -/
def stepUntilLoop (interp : PointQ → PointQ → ℚ → List ℚ)
    (evs : List EventQ) (fuel : ℕ) :
    List PointQ → PointQ → List ℚ → List (ℕ × PointQ) →
    Option (List (ℕ × PointQ) × ℕ × Bool)
  | [], _, _, log => some (log, 0, false)
  | point :: stepper, prev, vs, log =>
    (collectActions interp fuel prev point (evs.zip vs) 0).bind fun avs =>
    (if point.time < prev.time then reverseLoop (sortActions avs.1)
     else some (sortActions avs.1)).bind fun acts =>
    match runActions evs acts log with
    | (some idx, log2) => some (log2, idx, true)
    | (none, log2) => stepUntilLoop interp evs fuel stepper point avs.2 log2

/-- `StepUntil`: initialize the crossing values at `init` and run the loop. -/
def StepUntil (interp : PointQ → PointQ → ℚ → List ℚ) (evs : List EventQ)
    (fuel : ℕ) (stepper : List PointQ) (init : PointQ) :
    Option (List (ℕ × PointQ) × ℕ × Bool) :=
  stepUntilLoop interp evs fuel stepper init (evs.map (fun e => e.Cross init)) []

/-- A continuous-in-intent crossing function of time with zeros at `t = 1`
and `t = 3`, sampled only at the times the runs below query:
positive at `t ≤ 0`, `-3/5` at `t = 2`, negative past `t = 3`. -/
def crossA : ℚ → ℚ := fun t =>
  if t ≤ 0 then 1
  else if t = 1 then 0
  else if t = 2 then -(3 / 5)
  else if t = 3 then 0
  else -1

/-- First test event: crossing `crossA` of the time, tolerance `1/2`,
action always continues. -/
def evA : EventQ := ⟨fun p => crossA p.time, 1 / 2, fun _ => true⟩

/-- Second test event: crossing `2 - t`, zero at `t = 2`, tolerance `1/2`,
action always continues. -/
def evB : EventQ := ⟨fun p => 2 - p.time, 1 / 2, fun _ => true⟩

/-- C2: with both events firing in the single step, forward from `(0,[0])` to
`(4,[4])` both are localized (at `t=1` and `t=2`) and dispatched in ascending
time order — the earlier zero's action runs first, as claimed (first
conjunct). But on the mirrored backward step from `(4,[4])` to `(0,[0])`,
after localizing both events (at `t=2` and `t=3`) and sorting, the
descending-order reversal loop executes `actions[0], actions[size] = ...`
with `size = len(actions) = 2`, an index out of range: `StepUntil` panics and
no action is ever invoked (second conjunct), instead of dispatching in
descending time order. -/
theorem stepUntil_backward_two_events_panics :
    (∀ n, StepUntil linearFindValue [evA, evB] (n + 2) [⟨4, [4]⟩] ⟨0, [0]⟩ =
      some ([(0, ⟨1, [1]⟩), (1, ⟨2, [2]⟩)], 0, false)) ∧
    (∀ n, StepUntil linearFindValue [evA, evB] (n + 2) [⟨0, [0]⟩] ⟨4, [4]⟩ =
      none) := by
  have habs : |(3 : ℚ) / 5| = 3 / 5 := abs_of_nonneg (by norm_num)
  constructor <;> intro n <;>
    norm_num [StepUntil, stepUntilLoop, collectActions, runActions,
      sortActions, insertAction, FindPoint, findPointLoop, differentSign,
      linearFindValue, reverseLoop, reverseSwapsAux, swapGo, evA, evB, crossA,
      habs]

/-- The mutable state of `CacheSolver` (caching source file). The event list
and the interpolator are set at construction and never change, so they are
parameters of the operations; `none` for a stepper models the retired (`nil`)
stepper. -/
structure CacheState where
  backward : List PointQ
  forward : List PointQ
  backStep : Option (List PointQ)
  forStep : Option (List PointQ)
deriving DecidableEq

/-- `CacheSolver.Start`. When `backward` is empty Go indexes `forward[0]`,
nonempty by construction (`CacheSolve`); the `headD` default is unreachable
from constructed states. -/
def cacheStart (c : CacheState) : ℚ :=
  if c.backward.length > 0 then (c.backward.getLastD ⟨0, []⟩).time
  else (c.forward.headD ⟨0, []⟩).time

/-- `CacheSolver.End`. -/
def cacheEnd (c : CacheState) : ℚ := (c.forward.getLastD ⟨0, []⟩).time

/-- `CacheSolver.getActions`: same detection/localization/sort as the loop
body of `StepUntil`, reused through `collectActions` (Go iterates
`i < len(vals)`; `evs` and `vals` always have equal length). -/
def getActions (interp : PointQ → PointQ → ℚ → List ℚ) (evs : List EventQ)
    (fuel : ℕ) (current next : PointQ) (vals : List ℚ) :
    Option (List RequiredAction × List ℚ) :=
  (collectActions interp fuel current next (evs.zip vals) 0).map
    (fun ar => (sortActions ar.1, ar.2))

/-- The loop of `CacheSolver.expandBackward`: `for t < current.Time`, pop the
backward stepper (retiring it on exhaustion), dispatch the sorted actions in
**descending** index order (`for i := len(actions)-1; i >= 0; i--`, modelled
by reversing), and append the accepted point to `backward`. -/
def expandBackLoop (interp : PointQ → PointQ → ℚ → List ℚ)
    (evs : List EventQ) (fuel : ℕ) (t : ℚ) :
    List PointQ → PointQ → List ℚ → CacheState → Option (Bool × CacheState)
  | stepper, current, vals, c =>
    if t < current.time then
      match stepper with
      | [] => some (false, { c with backStep := none })
      | next :: rest =>
        (getActions interp evs fuel current next vals).bind fun av =>
        match runActions evs av.1.reverse [] with
        | (some _, _) => some (false, { c with backStep := some rest })
        | (none, _) =>
          expandBackLoop interp evs fuel t rest next av.2
            { c with backward := c.backward ++ [next], backStep := some rest }
    else some (true, c)

/-- `CacheSolver.expandBackward`. -/
def expandBackward (interp : PointQ → PointQ → ℚ → List ℚ)
    (evs : List EventQ) (fuel : ℕ) (t : ℚ) (c : CacheState) :
    Option (Bool × CacheState) :=
  match c.backStep with
  | none => some (false, c)
  | some stepper =>
    let current := if c.backward.length = 0 then c.forward.headD ⟨0, []⟩
      else c.backward.getLastD ⟨0, []⟩
    expandBackLoop interp evs fuel t stepper current
      (evs.map (fun e => e.Cross current)) c

/-- The loop of `CacheSolver.expandForward`. Its Go condition is
`for t < current.Time` — kept verbatim here — although this function is only
called with `t` beyond the last forward time, so the loop never runs;
dispatch order is ascending. -/
def expandFwdLoop (interp : PointQ → PointQ → ℚ → List ℚ)
    (evs : List EventQ) (fuel : ℕ) (t : ℚ) :
    List PointQ → PointQ → List ℚ → CacheState → Option (Bool × CacheState)
  | stepper, current, vals, c =>
    if t < current.time then
      match stepper with
      | [] => some (false, { c with forStep := none })
      | next :: rest =>
        (getActions interp evs fuel current next vals).bind fun av =>
        match runActions evs av.1 [] with
        | (some _, _) => some (false, { c with forStep := some rest })
        | (none, _) =>
          expandFwdLoop interp evs fuel t rest next av.2
            { c with forward := c.forward ++ [next], forStep := some rest }
    else some (true, c)

/-- `CacheSolver.expandForward`. -/
def expandForward (interp : PointQ → PointQ → ℚ → List ℚ)
    (evs : List EventQ) (fuel : ℕ) (t : ℚ) (c : CacheState) :
    Option (Bool × CacheState) :=
  match c.forStep with
  | none => some (false, c)
  | some stepper =>
    let current := c.forward.getLastD ⟨0, []⟩
    expandFwdLoop interp evs fuel t stepper current
      (evs.map (fun e => e.Cross current)) c

/-- The scanning loop `for t > l[i].Time { i++ }` of `CacheSolver.Get`,
walking the suffix of `l` from index `i`; running off the end of the slice is
a panic (`none`). -/
def findIdxFromAux (t : ℚ) : List PointQ → ℕ → Option ℕ
  | [], _ => none
  | p :: rest, i => if t > p.time then findIdxFromAux t rest (i + 1) else some i

/-- The scan of `l` starting at index `i`. -/
def findIdxFrom (l : List PointQ) (t : ℚ) (i : ℕ) : Option ℕ :=
  findIdxFromAux t (l.drop i) i

/-- `CacheSolver.Get` from the caching source file. The result is Go's
`(x, ok)` pair (`none` inside = `(nil, false)`) together with the updated
solver state; the outer `none` is a panic (or a diverging localization). -/
def cacheGet (interp : PointQ → PointQ → ℚ → List ℚ) (evs : List EventQ)
    (fuel : ℕ) (c : CacheState) (t : ℚ) :
    Option (Option (List ℚ) × CacheState) :=
  match (if t < cacheStart c then expandBackward interp evs fuel t c
    else some (true, c)) with
  | none => none
  | some (false, c1) => some (none, c1)
  | some (true, c1) =>
    match (if t > cacheEnd c1 then expandForward interp evs fuel t c1
      else some (true, c1)) with
    | none => none
    | some (false, c2) => some (none, c2)
    | some (true, c2) =>
      if (c2.forward.headD ⟨0, []⟩).time ≤ t then
        match findIdxFrom c2.forward t 1 with
        | none => none
        | some i => some (some (interp (c2.forward.getD (i - 1) ⟨0, []⟩)
            (c2.forward.getD i ⟨0, []⟩) t), c2)
      else
        match findIdxFrom c2.backward t 0 with
        | none => none
        | some i =>
          if i = 0 then
            some (some (interp (c2.backward.getD 0 ⟨0, []⟩)
              (c2.forward.headD ⟨0, []⟩) t), c2)
          else
            some (some (interp (c2.backward.getD i ⟨0, []⟩)
              (c2.backward.getD (i - 1) ⟨0, []⟩) t), c2)

/-- `CacheSolve`: fresh solver state — forward list holding a clone of the
initial point, empty backward list, both steppers live. -/
def CacheSolve (startPt : PointQ) (forStep backStep : List PointQ) :
    CacheState :=
  { backward := [], forward := [startPt],
    backStep := some backStep, forStep := some forStep }

/-- The last element picked by `getLastD` of a nonempty list is a member. -/
theorem getLastD_mem_of_ne_nil :
    ∀ (l : List PointQ) (d : PointQ), l ≠ [] → l.getLastD d ∈ l := by
  intro l
  induction l with
  | nil => intro d h; exact absurd rfl h
  | cons a rest ih =>
    intro d _
    cases rest with
    | nil => simp [List.getLastD]
    | cons b rest2 =>
      have h2 : (b :: rest2 : List PointQ) ≠ [] := by simp
      have := ih a h2
      simp only [List.getLastD_cons] at this ⊢
      exact List.mem_cons_of_mem a this

/-- The `Get` scanning loop stops inside the list as soon as some element at
or past the start index has time `≥ t`. -/
theorem findIdxFromAux_reaches (t : ℚ) :
    ∀ (lst : List PointQ) (i : ℕ), (∃ p ∈ lst, t ≤ p.time) →
      ∃ j, findIdxFromAux t lst i = some j := by
  intro lst
  induction lst with
  | nil => intro i h; obtain ⟨p, hp, _⟩ := h; exact absurd hp (by simp)
  | cons p rest ih =>
    intro i h
    by_cases hpt : t > p.time
    · obtain ⟨q, hq, hqt⟩ := h
      have hqr : q ∈ rest := by
        rcases List.mem_cons.mp hq with h1 | h1
        · exact absurd hqt (by rw [h1]; exact not_le.mpr hpt)
        · exact h1
      obtain ⟨j, hj⟩ := ih (i + 1) ⟨q, hqr, hqt⟩
      exact ⟨j, by rw [findIdxFromAux, if_pos hpt]; exact hj⟩
    · exact ⟨i, by rw [findIdxFromAux, if_neg hpt]⟩

/-- C7 (amended): for a covered time `t` (`Start() ≤ t ≤ End()`), **provided**
the forward list has at least two points whenever `t` is at or past the first
forward time, and `t` is at or below the newest backward point's time whenever
`t` is before the first forward time, `Get(t)` returns a value and leaves the
entire solver state — stored lists and both steppers — unchanged. Since it
returns the state unchanged and is deterministic, two consecutive calls
return identical values. The two provisos are forced by the counterexamples
(`cacheGet_covered_gap_panics` and the fresh-solver panic of C10): without
them the scanning loops of `Get` run past the end of the stored slices. -/
theorem cacheGet_covered_is_pure (interp : PointQ → PointQ → ℚ → List ℚ)
    (evs : List EventQ) (fuel : ℕ) (c : CacheState) (t : ℚ)
    (h1 : c.forward ≠ [])
    (h4a : cacheStart c ≤ t) (h4b : t ≤ cacheEnd c)
    (h5 : (c.forward.headD ⟨0, []⟩).time ≤ t → 2 ≤ c.forward.length)
    (h6 : t < (c.forward.headD ⟨0, []⟩).time →
      t ≤ (c.backward.headD ⟨0, []⟩).time) :
    ∃ v, cacheGet interp evs fuel c t = some (some v, c) := by
  have hnb : ¬(t < cacheStart c) := not_lt.mpr h4a
  have hne : ¬(t > cacheEnd c) := not_lt.mpr h4b
  rw [cacheGet]
  simp only [if_neg hnb, if_neg hne]
  rcases le_or_lt (c.forward.headD ⟨0, []⟩).time t with hcase | hcase
  · rw [if_pos hcase]
    obtain ⟨a, rest, hfw⟩ : ∃ a rest, c.forward = a :: rest := by
      cases hc : c.forward with
      | nil => exact absurd hc h1
      | cons x xs => exact ⟨x, xs, rfl⟩
    have hrest : rest ≠ [] := by
      have h2 := h5 hcase
      rw [hfw] at h2
      cases rest with
      | nil => simp at h2
      | cons b r2 => simp
    have hmem : c.forward.getLastD ⟨0, []⟩ ∈ rest := by
      rw [hfw, List.getLastD_cons]
      exact getLastD_mem_of_ne_nil rest a hrest
    have hlast : t ≤ (c.forward.getLastD ⟨0, []⟩).time := h4b
    obtain ⟨j, hj⟩ := findIdxFromAux_reaches t rest 1
      ⟨c.forward.getLastD ⟨0, []⟩, hmem, hlast⟩
    have hscan : findIdxFrom c.forward t 1 = some j := by
      rw [findIdxFrom, hfw]
      simpa using hj
    rw [hscan]
    exact ⟨_, rfl⟩
  · rw [if_neg (not_le.mpr hcase)]
    have hb : c.backward ≠ [] := by
      intro hnil
      have hs : cacheStart c = (c.forward.headD ⟨0, []⟩).time := by
        rw [cacheStart, hnil]; simp
      rw [hs] at h4a
      exact absurd (lt_of_le_of_lt h4a hcase) (lt_irrefl _)
    obtain ⟨bp, brest, hbw⟩ : ∃ bp brest, c.backward = bp :: brest := by
      cases hc : c.backward with
      | nil => exact absurd hc hb
      | cons x xs => exact ⟨x, xs, rfl⟩
    have hb6 := h6 hcase
    rw [hbw] at hb6
    simp only [List.headD_cons] at hb6
    have hb0 : ¬(t > bp.time) := not_lt.mpr hb6
    have hscan : findIdxFrom c.backward t 0 = some 0 := by
      rw [findIdxFrom, hbw, List.drop_zero, findIdxFromAux, if_neg hb0]
    rw [hscan]
    exact ⟨_, rfl⟩

/-- A covered cache state: backward point at `t=-1`, forward points at
`t=0` (the initial point) and `t=1`. -/
def cacheW : CacheState :=
  ⟨[⟨-1, [0]⟩], [⟨0, [1]⟩, ⟨1, [3]⟩], some [], some []⟩

/-- Witness for `cacheGet_covered_is_pure` at `t = 1/2` on `cacheW`. -/
theorem cacheGet_covered_is_pure_witness :
    (cacheW.forward ≠ [] ∧ cacheStart cacheW ≤ 1 / 2 ∧
      (1 / 2 : ℚ) ≤ cacheEnd cacheW ∧
      ((cacheW.forward.headD ⟨0, []⟩).time ≤ (1 / 2 : ℚ) →
        2 ≤ cacheW.forward.length) ∧
      ((1 / 2 : ℚ) < (cacheW.forward.headD ⟨0, []⟩).time →
        (1 / 2 : ℚ) ≤ (cacheW.backward.headD ⟨0, []⟩).time)) ∧
    ∃ v, cacheGet linearFindValue [] 0 cacheW (1 / 2) =
      some (some v, cacheW) := by
  refine ⟨⟨by simp [cacheW], by norm_num [cacheW, cacheStart],
    by norm_num [cacheW, cacheEnd], by intro h; norm_num [cacheW],
    by intro h; norm_num [cacheW] at h⟩, ?_⟩
  exact cacheGet_covered_is_pure linearFindValue [] 0 cacheW (1 / 2)
    (by simp [cacheW]) (by norm_num [cacheW, cacheStart])
    (by norm_num [cacheW, cacheEnd]) (by intro h; norm_num [cacheW])
    (by intro h; norm_num [cacheW] at h)

/-- A cache state whose covered range has a gap query: backward point at
`t=1`, forward point at `t=2`. -/
def cacheBad : CacheState := ⟨[⟨1, [1]⟩], [⟨2, [2]⟩], some [], some []⟩

/-- C7 counterexample: `t = 3/2` is covered (`Start() = 1 ≤ 3/2 ≤ 2 = End()`)
but lies strictly between the newest backward point and the initial point, so
the backward scanning loop `for t > backward[i].Time { i++ }` (whose
condition is inverted for the decreasing backward list) runs off the end of
the slice and `Get` panics instead of returning a value at all. -/
theorem cacheGet_covered_gap_panics :
    cacheStart cacheBad ≤ 3 / 2 ∧ (3 / 2 : ℚ) ≤ cacheEnd cacheBad ∧
    cacheGet linearFindValue [] 0 cacheBad (3 / 2) = none := by
  refine ⟨by norm_num [cacheBad, cacheStart], by norm_num [cacheBad, cacheEnd],
    ?_⟩
  norm_num [cacheGet, cacheStart, cacheEnd, cacheBad, findIdxFrom,
    findIdxFromAux]

/-- C10: on a freshly constructed `CacheSolver` (forward list holding only
the initial point, backward list empty) `Get(t0)` takes the forward branch
(`t0 ≥ forward[0].Time`), starts its scan at index `i = 1` and immediately
reads `forward[1]` — one past the end of the one-element forward list — so it
panics instead of returning the initial value. This holds for every fuel,
interpolator, event list and stepper contents. -/
theorem cacheGet_fresh_initial_time_panics
    (fuel : ℕ) (interp : PointQ → PointQ → ℚ → List ℚ) (evs : List EventQ)
    (fs bs : List PointQ) (startPt : PointQ) :
    cacheGet interp evs fuel (CacheSolve startPt fs bs) startPt.time =
      none := by
  simp [cacheGet, CacheSolve, cacheStart, cacheEnd, findIdxFrom,
    findIdxFromAux]

/-- A solution point over `ℝ`, for the adaptive steppers whose error
estimates go through `math.Sqrt`. -/
structure PointR where
  time : ℝ
  value : List ℝ

/-- The state of `adaptiveStepper` (stepping source file). The inner
fixed-step `method` is a parameter of the operations: from a point and a
step it produces the value at `time + step` (`none` = inner failure). -/
structure AdaptiveState where
  point : PointR
  step : ℝ
  hmin : ℝ
  hmax : ℝ
  tolerance : ℝ
  order : ℕ

/-- `adaptiveStepper.getSteps`: the full step `F` and the two half steps `H`
from the stored point. As in Go, `Start.Time` is never advanced between the
two half steps (the inner method only reads the time). The Go version writes
through reused buffers; this functional version agrees with it on every
execution in which the inner method does not fail halfway through (the only
ones exercised below). -/
noncomputable def getSteps (method : PointR → ℝ → Option (List ℝ)) (p : PointR)
    (step : ℝ) : Option (List ℝ × List ℝ) :=
  (method p step).bind fun full =>
  (method p (step / 2)).bind fun h1 =>
  (method ⟨p.time, h1⟩ (step / 2)).map fun half => (full, half)

/-- The Richardson error estimate of `adaptiveStepper.Next`:
`‖F − H‖₂ · (1 + 1/(2^order − 1))` (`math.Ldexp(1, order)` is `2^order`). -/
noncomputable def adaptiveErr (order : ℕ) (full half : List ℝ) : ℝ :=
  let orderm1 := 1 / ((2 : ℝ) ^ order - 1)
  let multiplier := 1 + orderm1
  Real.sqrt ((List.zipWith (fun v hv => (v - hv) * (v - hv)) full half).sum) *
    multiplier

/-- `adaptiveStepper.Next` (stepping source file) with fuel counting loop
iterations (`none` = fuel ran out; `some none` = Go's `(nil, false)`
exhaustion). The loop guard is Go's verbatim `s.step >= s.hmin` on the
**signed** step. The Go inner retry loop halves the step on inner-method
failure and re-tests `s.step < s.hmin` itself, which is the same test the
outer loop repeats, so both failure and rejection re-enter the single loop
here. -/
noncomputable def adaptiveNext (method : PointR → ℝ → Option (List ℝ)) :
    ℕ → AdaptiveState → Option (Option (PointR × AdaptiveState))
  | 0, _ => none
  | fuel + 1, s =>
    if s.step ≥ s.hmin then
      match getSteps method s.point s.step with
      | none => adaptiveNext method fuel { s with step := s.step * 0.5 }
      | some (full, half) =>
        let orderm1 := 1 / ((2 : ℝ) ^ s.order - 1)
        let multiplier := 1 + orderm1
        let err := adaptiveErr s.order full half
        if err > s.tolerance * |s.step| then
          adaptiveNext method fuel { s with
            step := AdaptiveUpdateStep s.step s.tolerance err s.hmax s.order }
        else
          let newVal := List.zipWith
            (fun v hv => multiplier * hv - orderm1 * v) full half
          let newPt : PointR := ⟨s.point.time + s.step, newVal⟩
          let s2 : AdaptiveState :=
            { s with
              point := newPt
              step := AdaptiveUpdateStep s.step s.tolerance err s.hmax s.order }
          some (some (newPt, s2))
    else some none

/-- The state of `rkFehlbergStepper` (Runge-Kutta-Fehlberg source file); the
derivative function is a parameter of the operations. -/
structure RkfState where
  current : PointR
  step : ℝ
  tol : ℝ
  hmin : ℝ
  hmax : ℝ

/-- The six stage derivatives of one Runge-Kutta-Fehlberg trial, each already
scaled by the step as in the Go code; `none` as soon as one stage evaluation
reports domain failure. -/
noncomputable def rkfStages (deriv : PointR → List ℝ × Bool) (current : PointR)
    (step : ℝ) :
    Option (List ℝ × List ℝ × List ℝ × List ℝ × List ℝ × List ℝ) :=
  let (k1, ok) := deriv current
  if !ok then none else
  let k1 := k1.map (· * step)
  let p2 : PointR := ⟨current.time + step / 4,
    List.zipWith (fun x k => x + k / 4) current.value k1⟩
  let (k2, ok) := deriv p2
  if !ok then none else
  let k2 := k2.map (· * step)
  let p3 : PointR := ⟨current.time + step * 3 / 8,
    List.zipWith (fun x kk => x + (3 * kk.1 + 9 * kk.2) / 32)
      current.value (k1.zip k2)⟩
  let (k3, ok) := deriv p3
  if !ok then none else
  let k3 := k3.map (· * step)
  let p4 : PointR := ⟨current.time + step * 12 / 13,
    List.zipWith
      (fun x kk => x + (1932 * kk.1 - 7200 * kk.2.1 + 7296 * kk.2.2) / 2197)
      current.value (k1.zip (k2.zip k3))⟩
  let (k4, ok) := deriv p4
  if !ok then none else
  let k4 := k4.map (· * step)
  let p5 : PointR := ⟨current.time + step,
    List.zipWith
      (fun x kk => x + (439 * kk.1 / 216 - 8 * kk.2.1 +
        3680 * kk.2.2.1 / 513 - 845 * kk.2.2.2 / 4104))
      current.value (k1.zip (k2.zip (k3.zip k4)))⟩
  let (k5, ok) := deriv p5
  if !ok then none else
  let k5 := k5.map (· * step)
  let p6 : PointR := ⟨current.time + step / 2,
    List.zipWith
      (fun x kk => x + (-8 * kk.1 / 27 + 2 * kk.2.1 -
        3544 * kk.2.2.1 / 2656 + 1859 * kk.2.2.2.1 / 4104 -
        11 * kk.2.2.2.2 / 40))
      current.value (k1.zip (k2.zip (k3.zip (k4.zip k5))))⟩
  let (k6, ok) := deriv p6
  if !ok then none else
  let k6 := k6.map (· * step)
  some (k1, k2, k3, k4, k5, k6)

/-- The embedded-pair error estimate of `rkFehlbergStepper.Next`: the
Euclidean norm of `k1/360 − 128·k3/4275 − 2197·k4/75240 + k5/50 + 2·k6/55`. -/
noncomputable def rkfErr (k1 k3 k4 k5 k6 : List ℝ) : ℝ :=
  let vs := List.zipWith
    (fun a r => a / 360 - 128 * r.1 / 4275 - 2197 * r.2.1 / 75240 +
      r.2.2.1 / 50 + 2 * r.2.2.2 / 55)
    k1 (k3.zip (k4.zip (k5.zip k6)))
  Real.sqrt ((vs.map (fun v => v * v)).sum)

/-- The accepted fourth-order update of `rkFehlbergStepper.Next`:
`x += 25·k1/216 + 1408·k3/2565 + 2197·k4/4104 − k5/5`. -/
noncomputable def rkfUpdate (xs k1 k3 k4 k5 : List ℝ) : List ℝ :=
  List.zipWith
    (fun x kk => x + 25 * kk.1 / 216 + 1408 * kk.2.1 / 2565 +
      2197 * kk.2.2.1 / 4104 - kk.2.2.2 / 5)
    xs (k1.zip (k3.zip (k4.zip k5)))

/-- Outcome of one iteration of the `rkFehlbergStepper.Next` loop. -/
inductive RkfOutcome : Type
  | stageFail : ℝ → RkfOutcome
  | rejected : ℝ → RkfOutcome
  | accepted : PointR → RkfState → RkfOutcome

/-- One iteration of the `rkFehlbergStepper.Next` loop body: halve the step
on a stage failure, compare the error estimate against the **absolute**
tolerance `s.tol`, update the step with `AdaptiveUpdateStep` (order 4) on
both rejection and acceptance, and advance time only on acceptance. -/
noncomputable def rkfTrial (deriv : PointR → List ℝ × Bool) (s : RkfState) :
    RkfOutcome :=
  match rkfStages deriv s.current s.step with
  | none => .stageFail (s.step * 0.5)
  | some (k1, _, k3, k4, k5, k6) =>
    let err := rkfErr k1 k3 k4 k5 k6
    if err > s.tol then
      .rejected (AdaptiveUpdateStep s.step s.tol err s.hmax 4)
    else
      let newPt : PointR :=
        ⟨s.current.time + s.step, rkfUpdate s.current.value k1 k3 k4 k5⟩
      let s2 : RkfState :=
        { s with
          current := newPt
          step := AdaptiveUpdateStep s.step s.tol err s.hmax 4 }
      .accepted newPt s2

/-- `rkFehlbergStepper.Next` with fuel counting loop iterations; the loop
guard is Go's verbatim `s.step >= s.hmin` on the **signed** step. -/
noncomputable def rkfNext (deriv : PointR → List ℝ × Bool) :
    ℕ → RkfState → Option (Option (PointR × RkfState))
  | 0, _ => none
  | fuel + 1, s =>
    if s.step ≥ s.hmin then
      match rkfTrial deriv s with
      | .stageFail ns => rkfNext deriv fuel { s with step := ns }
      | .rejected ns => rkfNext deriv fuel { s with step := ns }
      | .accepted p s2 => some (some (p, s2))
    else some none

/-- Holds when the outcome is an acceptance whose point has time `t`. -/
def RkfOutcome.isAcceptedAt (o : RkfOutcome) (t : ℝ) : Prop :=
  match o with
  | .accepted p _ => p.time = t
  | _ => False

/-- An inner fixed-step method advancing the value by `h²` (exact error
source for the Richardson pair below). -/
noncomputable def method0 : PointR → ℝ → Option (List ℝ) :=
  fun p h => some [p.value.headD 0 + h * h]

/-- The state `AdaptiveStepMethod{Step:1/2, Hmin:1/4, Hmax:1, Tolerance:1,
Order:1}.Backward(ivp)` produces: the signed step is `-1/2`. -/
noncomputable def backA : AdaptiveState := ⟨⟨0, [0]⟩, -(1 / 2), 1 / 4, 1, 1, 1⟩

/-- The state `RKFehlberg(1, 1/2, 1/4, 1).Backward(ivp)` produces: the
signed step is `-1/2`. -/
noncomputable def backR : RkfState := ⟨⟨0, [0]⟩, -(1 / 2), 1, 1 / 4, 1⟩

/-- The everywhere-defined zero derivative. -/
noncomputable def derivZero : PointR → List ℝ × Bool := fun _ => ([0], true)

/-- C1: both adaptive `Next` loops guard on the **signed** step,
`s.step >= s.hmin`, so with `0 < Hmin ≤ Step` every `Backward` stepper
(negative step) exhausts on its very first `Next`, at any fuel (first and
third conjuncts) — even though the first backward trial would succeed within
tolerance: for the Richardson wrapper the backward trial's error estimate is
`1/4 ≤ tolerance·|h| = 1/2` (second conjunct), and the backward
Runge-Kutta-Fehlberg trial is outright accepted, producing the point at
`t0 + h` (fourth conjunct). The final conjuncts record the claim's premise
`0 < Hmin ≤ |Step|` for both instances. The claim — exhaustion only when
`|h|` would drop below `Hmin` — is therefore false for every backward
stepper of both methods. -/
theorem backward_adaptive_steppers_exhaust :
    (∀ fuel, adaptiveNext method0 (fuel + 1) backA = some none) ∧
    (getSteps method0 backA.point backA.step = some ([1 / 4], [1 / 8]) ∧
      adaptiveErr backA.order [1 / 4] [1 / 8] = 1 / 4 ∧
      (1 / 4 : ℝ) ≤ backA.tolerance * |backA.step|) ∧
    (∀ fuel, rkfNext derivZero (fuel + 1) backR = some none) ∧
    (rkfTrial derivZero backR).isAcceptedAt
      (backR.current.time + backR.step) ∧
    (0 : ℝ) < backA.hmin ∧ backA.hmin ≤ |backA.step| ∧
    (0 : ℝ) < backR.hmin ∧ backR.hmin ≤ |backR.step| := by
  have habs2 : |(-(1 / 2) : ℝ)| = 1 / 2 := by
    rw [abs_of_nonpos (by norm_num : (-(1 / 2) : ℝ) ≤ 0)]; norm_num
  refine ⟨?_, ⟨?_, ?_, ?_⟩, ?_, ?_, by norm_num [backA], ?_, by norm_num [backR], ?_⟩
  · intro fuel
    have hg : ¬(backA.step ≥ backA.hmin) := by norm_num [backA]
    rw [adaptiveNext, if_neg hg]
  · norm_num [getSteps, method0, backA]
  · have h64 : Real.sqrt 64 = 8 := by
      rw [show (64 : ℝ) = 8 ^ 2 by norm_num,
        Real.sqrt_sq (by norm_num : (0 : ℝ) ≤ 8)]
    simp only [adaptiveErr, backA]
    norm_num [h64]
  · norm_num [backA, habs2]
  · intro fuel
    have hg : ¬(backR.step ≥ backR.hmin) := by norm_num [backR]
    rw [rkfNext, if_neg hg]
  · norm_num [rkfTrial, rkfStages, rkfErr, derivZero, backR,
      RkfOutcome.isAcceptedAt, Real.sqrt_zero]
  · norm_num [backA, habs2]
  · norm_num [backR, habs2]

/-- The derivative `f(t,x) = t⁴` (the solution `t⁵/5` is the lowest-degree
monomial the embedded pair's error estimator does not annihilate, giving a
nonzero exact rational error). -/
noncomputable def derivT4 : PointR → List ℝ × Bool :=
  fun p => ([p.time ^ 4], true)

/-- A Runge-Kutta-Fehlberg state with `h = 2`, `tol = 1/100`: the trial
error `1/65` lies between `tol` and `tol·|h| = 1/50`. -/
noncomputable def rkfC4 : RkfState := ⟨⟨0, [0]⟩, 2, 1 / 100, 1, 10⟩

/-- C4 counterexample: on `x' = t⁴` from `(0,[0])` with `h = 2` and
`tol = 1/100`, the six stages succeed and the error estimate is exactly
`1/65`, which satisfies the claim's acceptance condition
`e ≤ tol·|h| = 1/50` — yet the trial is **rejected** (the code compares `e`
against the absolute `tol`, without the `|h|` factor used by the Richardson
wrapper), so the claim's acceptance characterization is false. -/
theorem rkfTrial_rejects_despite_relative_tolerance :
    rkfStages derivT4 rkfC4.current rkfC4.step =
      some ([0], [1 / 8], [81 / 128], [663552 / 28561], [32], [2]) ∧
    rkfErr [0] [81 / 128] [663552 / 28561] [32] [2] = 1 / 65 ∧
    (1 / 65 : ℝ) ≤ rkfC4.tol * |rkfC4.step| ∧ ¬((1 / 65 : ℝ) ≤ rkfC4.tol) ∧
    rkfTrial derivT4 rkfC4 =
      .rejected (AdaptiveUpdateStep 2 (1 / 100) (1 / 65) 10 4) := by
  have hs : rkfStages derivT4 rkfC4.current rkfC4.step =
      some ([0], [1 / 8], [81 / 128], [663552 / 28561], [32], [2]) := by
    norm_num [rkfStages, derivT4, rkfC4]
  have h4225 : Real.sqrt 4225 = 65 := by
    rw [show (4225 : ℝ) = 65 ^ 2 by norm_num,
      Real.sqrt_sq (by norm_num : (0 : ℝ) ≤ 65)]
  have he : rkfErr [0] [81 / 128] [663552 / 28561] [32] [2] = 1 / 65 := by
    simp only [rkfErr]
    norm_num [h4225]
  refine ⟨hs, he, by norm_num [rkfC4, abs_of_nonneg], by norm_num [rkfC4], ?_⟩
  simp only [rkfTrial, hs, he]
  rw [if_pos (by norm_num [rkfC4])]
  simp [rkfC4]

/-- C4 (amended): whenever the six stage evaluations succeed, the
Runge-Kutta-Fehlberg trial is accepted exactly when the error estimate `e`
satisfies `e ≤ tol` — an absolute threshold, not the claim's `tol·|h|` — and
otherwise the trial is rejected with the step updated by
`AdaptiveUpdateStep` (order 4) and no time advance: the loop re-enters with
the same `current` point and only the step changed (third conjunct). -/
theorem rkfTrial_characterization (deriv : PointR → List ℝ × Bool)
    (s : RkfState) (k1 k2 k3 k4 k5 k6 : List ℝ)
    (h : rkfStages deriv s.current s.step = some (k1, k2, k3, k4, k5, k6)) :
    (rkfErr k1 k3 k4 k5 k6 ≤ s.tol →
      rkfTrial deriv s = .accepted
        ⟨s.current.time + s.step, rkfUpdate s.current.value k1 k3 k4 k5⟩
        { s with
          current :=
            ⟨s.current.time + s.step, rkfUpdate s.current.value k1 k3 k4 k5⟩
          step := AdaptiveUpdateStep s.step s.tol
            (rkfErr k1 k3 k4 k5 k6) s.hmax 4 }) ∧
    (s.tol < rkfErr k1 k3 k4 k5 k6 →
      rkfTrial deriv s = .rejected
        (AdaptiveUpdateStep s.step s.tol (rkfErr k1 k3 k4 k5 k6) s.hmax 4)) ∧
    (∀ fuel, s.hmin ≤ s.step → s.tol < rkfErr k1 k3 k4 k5 k6 →
      rkfNext deriv (fuel + 1) s = rkfNext deriv fuel
        { s with
          step := AdaptiveUpdateStep s.step s.tol
            (rkfErr k1 k3 k4 k5 k6) s.hmax 4 }) := by
  have hrej : s.tol < rkfErr k1 k3 k4 k5 k6 →
      rkfTrial deriv s = .rejected
        (AdaptiveUpdateStep s.step s.tol (rkfErr k1 k3 k4 k5 k6) s.hmax 4) := by
    intro hgt
    simp only [rkfTrial, h]
    rw [if_pos hgt]
  refine ⟨fun hle => ?_, hrej, fun fuel hgd hgt => ?_⟩
  · simp only [rkfTrial, h]
    rw [if_neg (not_lt.mpr hle)]
  · rw [rkfNext, if_pos hgd, hrej hgt]

/-- A forward Runge-Kutta-Fehlberg state for the witness. -/
noncomputable def rkfWst : RkfState := ⟨⟨0, [0]⟩, 1 / 2, 1, 1 / 4, 1⟩

/-- Witness for `rkfTrial_characterization`: with the zero derivative the
stages are all zero, the error is `√0 = 0 ≤ tol`, and the trial is accepted. -/
theorem rkfTrial_characterization_witness :
    rkfStages derivZero rkfWst.current rkfWst.step =
      some ([0], [0], [0], [0], [0], [0]) ∧
    rkfErr [0] [0] [0] [0] [0] ≤ rkfWst.tol ∧
    rkfTrial derivZero rkfWst = .accepted
      ⟨rkfWst.current.time + rkfWst.step,
        rkfUpdate rkfWst.current.value [0] [0] [0] [0]⟩
      { rkfWst with
        current := ⟨rkfWst.current.time + rkfWst.step,
          rkfUpdate rkfWst.current.value [0] [0] [0] [0]⟩
        step := AdaptiveUpdateStep rkfWst.step rkfWst.tol
          (rkfErr [0] [0] [0] [0] [0]) rkfWst.hmax 4 } := by
  have hs : rkfStages derivZero rkfWst.current rkfWst.step =
      some ([0], [0], [0], [0], [0], [0]) := by
    norm_num [rkfStages, derivZero, rkfWst]
  have he : rkfErr [0] [0] [0] [0] [0] ≤ rkfWst.tol := by
    norm_num [rkfErr, rkfWst, Real.sqrt_zero]
  exact ⟨hs, he,
    (rkfTrial_characterization derivZero rkfWst [0] [0] [0] [0] [0] [0] hs).1 he⟩
